import Mathlib

/-!
Shallow embedding of the manifest-entry processors of
`sdp/processors/modify_manifest/common.py` (NeMo speech data processor),
with proofs about their behaviour.

A Python `dict` is modelled as an association list in insertion order:
`dict.get k` returns the value of the first binding of `k`, `dict[k] = v`
overwrites the first binding of `k` in place or appends a fresh binding at
the end, and `del dict[k]` / `dict.pop(k, None)` removes the binding.
Durations are modelled with exact rationals; strings with Lean strings
(upper-casing of single characters uses `Char.toUpper`, which agrees with
Python `str.upper` on ASCII).  Fallible code returns `Option` or
`Except String`.
-/

/-- Value stored in a manifest entry: the JSON scalar types the embedded
processors manipulate (string, number, boolean). -/
inductive Value : Type
  | str : String → Value
  | num : ℚ → Value
  | bool : Bool → Value
deriving DecidableEq

/-- Manifest entry: insertion-ordered mapping from field names to values. -/
abbrev Entry : Type := List (String × Value)

/-- Python `dict.get k`: value of the first binding of `k`, if any. -/
def eget : Entry → String → Option Value
  | [], _ => none
  | (k', v') :: rest, k => if k' = k then some v' else eget rest k

/-- Python `dict[k] = v`: overwrite the first binding of `k`, else append. -/
def eset : Entry → String → Value → Entry
  | [], k, v => [(k, v)]
  | (k', v') :: rest, k, v =>
      if k' = k then (k, v) :: rest else (k', v') :: eset rest k v

/-- Python `del dict[k]` / `dict.pop(k, None)`: drop the binding of `k`. -/
def eerase : Entry → String → Entry
  | [], _ => []
  | (k', v') :: rest, k =>
      if k' = k then eerase rest k else (k', v') :: eerase rest k

/-- Test made by `CombineSources.process_dataset_entry` for each source:
`data_entry.get(source_dict['field'], self.na_indicator) != self.na_indicator`. -/
def qualifiesB (e : Entry) (fieldName na : String) : Bool :=
  decide (((eget e fieldName).getD (Value.str na)) ≠ Value.str na)

/-- `CombineSources.process_dataset_entry`: scan the sources in order; the
first one whose field is present with a value different from the sentinel
wins and its value and origin label are written to the target and the
`<target>_origin` fields; if none qualifies, the sentinel is written to
both. -/
def combineSources (sources : List (String × String)) (target na : String) (e : Entry) : Entry :=
  match sources.find? (fun p => qualifiesB e p.1 na) with
  | some p =>
      eset (eset e target ((eget e p.1).getD (Value.str na)))
        (target ++ "_origin") (Value.str p.2)
  | none =>
      eset (eset e target (Value.str na)) (target ++ "_origin") (Value.str na)

/-- `AddConstantFields.process_dataset_entry`: `data_entry.update(self.fields)`. -/
def addConstantFields (fields : List (String × Value)) (e : Entry) : Entry :=
  fields.foldl (fun acc p => eset acc p.1 p.2) e

/-- Rendering of a value inside the f-string of the `ValueError` message. -/
def renderValue : Value → String
  | Value.str s => s
  | Value.num q => toString q.num ++ "/" ++ toString q.den
  | Value.bool b => toString b

/-- Rendering of an entry inside the f-string of the `ValueError` message. -/
def renderEntry (e : Entry) : String :=
  "\x7b" ++ String.intercalate ", " (e.map (fun p => p.1 ++ ": " ++ renderValue p.2)) ++ "\x7d"

/-- Message of the `ValueError` raised by `DuplicateFields` and
`RenameFields` when a source field is missing. -/
def missingFieldMsg (fieldSrc : String) (e : Entry) : String :=
  "Expected field " ++ fieldSrc ++ " in data_entry " ++ renderEntry e ++ " but there isn't one."

/-- `DuplicateFields.process_dataset_entry`: for each (source, target) pair
in declaration order, fail if the source field is missing from the current
entry, else copy its current value to the target field. -/
def duplicateFields : List (String × String) → Entry → Except String Entry
  | [], e => Except.ok e
  | (src, tgt) :: rest, e =>
      match eget e src with
      | none => Except.error (missingFieldMsg src e)
      | some v => duplicateFields rest (eset e tgt v)

/-- `RenameFields.process_dataset_entry`: same as `duplicateFields` but the
source field is deleted after being copied. -/
def renameFields : List (String × String) → Entry → Except String Entry
  | [], e => Except.ok e
  | (src, tgt) :: rest, e =>
      match eget e src with
      | none => Except.error (missingFieldMsg src e)
      | some v => renameFields rest (eerase (eset e tgt v) src)

/-- Whether an `Except` result is a success. -/
def exceptOk : Except String Entry → Bool
  | Except.ok _ => true
  | Except.error _ => false

/-- Segment entry built inside `SplitOnFixedDuration.process_dataset_entry`:
a shallow copy of the entry with `duration` and `offset` overwritten and,
when `drop_text` is set, the `text` field popped. -/
def mkSegment (e : Entry) (dur off : ℚ) (dropText : Bool) : Entry :=
  let m := eset (eset e "duration" (Value.num dur)) "offset" (Value.num off)
  if dropText then eerase m "text" else m

/-- Remainder computed by `SplitOnFixedDuration.process_dataset_entry`:
`remainder = total_duration - self.segment_duration * total_segments`. -/
def splitRemainder (s d : ℚ) : ℚ := d - s * ((⌊d / s⌋ : ℤ) : ℚ)

/-- Segment list of `SplitOnFixedDuration.process_dataset_entry`:
`total_segments = int(total_duration // self.segment_duration)` whole
segments of length `segment_duration` at offsets `index * segment_duration`,
plus the remainder segment when `drop_last` is false and the remainder is
positive. -/
def splitSegs (s : ℚ) (dropLast dropText : Bool) (e : Entry) (d : ℚ) : List Entry :=
  let main := (List.range (⌊d / s⌋).toNat).map
    (fun i => mkSegment e s (((i : ℕ) : ℚ) * s) dropText)
  if dropLast = false ∧ 0 < splitRemainder s d then
    main ++ [mkSegment e (splitRemainder s d) (s * ((⌊d / s⌋ : ℤ) : ℚ)) dropText]
  else main

/-- `SplitOnFixedDuration.process_dataset_entry`; `none` models the
`KeyError` or `TypeError` raised when `data_entry["duration"]` is missing
or not a number. -/
def splitOnFixedDuration (s : ℚ) (dropLast dropText : Bool) (e : Entry) : Option (List Entry) :=
  match eget e "duration" with
  | some (Value.num d) => some (splitSegs s dropLast dropText e d)
  | _ => none

/-- Numeric payload of an optional value, used to read `duration` and
`offset` fields back from segment entries. -/
def numOf : Option Value → Option ℚ
  | some (Value.num q) => some q
  | _ => none

/-- Durations of the emitted segments, in emission order. -/
def durationsOf (segs : List Entry) : List ℚ :=
  segs.filterMap (fun m => numOf (eget m "duration"))

/-- Offsets of the emitted segments, in emission order. -/
def offsetsOf (segs : List Entry) : List ℚ :=
  segs.filterMap (fun m => numOf (eget m "offset"))

/-- `ChangeToRelativePath.process_dataset_entry`, with
`os.path.relpath(·, base_dir)` abstracted as an arbitrary function on path
strings (path arithmetic is outside the embedded core); `none` models the
`KeyError`/`TypeError` on a missing or non-string `audio_filepath`. -/
def changeToRelativePath (relpath : String → String) (e : Entry) : Option Entry :=
  match eget e "audio_filepath" with
  | some (Value.str p) => some (eset e "audio_filepath" (Value.str (relpath p)))
  | _ => none

/-- Character-level body of `RemoveExtraSymbols.clear_text`: the armenian
substitutions `.` → `․` and `:` → `։` applied first, then deletion of every
occurrence of each ignore character and of its upper-case variant.  All the
patterns `str.replace` is called with are single characters, so replacement
is a per-character map and deletion is a filter. -/
def clearTextChars (text : List Char) (ignore : List Char) (lang : String) : List Char :=
  let t :=
    if lang = "armenian" then
      (text.map (fun ch => if ch = '.' then '․' else ch)).map
        (fun ch => if ch = ':' then '։' else ch)
    else text
  ignore.foldl
    (fun acc c => (acc.filter (fun ch => ch != c)).filter (fun ch => ch != c.toUpper)) t

/-- `RemoveExtraSymbols.clear_text` on strings. -/
def clear_text (text : String) (ignore : String) (lang : String) : String :=
  String.mk (clearTextChars text.toList ignore.toList lang)

/-- `RemoveExtraSymbols.process_dataset_entry`: computes the cleaned text
and the removed-symbol metric `len(original_text) - len(cleaned_text)` and
wraps the original entry unchanged — the code returns
`DataEntry(data=data_entry, metrics=n_removed_symbols)` without writing
`cleaned_text` back into the entry.  `none` models the `KeyError` or
`TypeError` on a missing or non-string text field. -/
def removeExtraSymbols (ignore lang textKey : String) (e : Entry) : Option (Entry × Int) :=
  match eget e textKey with
  | some (Value.str original) =>
      some (e, (original.length : Int) - ((clear_text original ignore lang).length : Int))
  | _ => none

/-- Command list built by `CreateTokenizer.get_command_to_run` (after the
final `str(x)` mapping; `vocab_size` is the only non-string element). -/
def getTokenizerCommand (nemoExecutable scriptPath documentPath dataFolder : String)
    (vocabSize : ℕ) (tokenizer speType : String) (lowerCase : Bool) : List String :=
  let command : List String :=
    [nemoExecutable, scriptPath, "--data_file", documentPath,
     "--vocab_size", toString vocabSize, "--data_root", dataFolder,
     "--tokenizer", tokenizer, "--spe_type", speType]
  if lowerCase then command ++ ["--no_lower_case"] else command

/-! ### Basic lemmas about the dict model -/

theorem eget_eset_self (e : Entry) (k : String) (v : Value) :
    eget (eset e k v) k = some v := by
  induction e with
  | nil => simp [eset, eget]
  | cons p rest ih =>
      obtain ⟨k', v'⟩ := p
      by_cases h : k' = k
      · simp [eset, eget, h]
      · simp [eset, eget, h, ih]

theorem eget_eset_ne (e : Entry) (k k' : String) (v : Value) (h : k ≠ k') :
    eget (eset e k v) k' = eget e k' := by
  induction e with
  | nil => simp [eset, eget, h]
  | cons p rest ih =>
      obtain ⟨a, b⟩ := p
      by_cases ha : a = k
      · subst ha
        simp [eset, eget, h]
      · simp [eset, eget, ha, ih]

theorem eset_eq_self (e : Entry) (k : String) (v : Value) (h : eget e k = some v) :
    eset e k v = e := by
  induction e with
  | nil => simp [eget] at h
  | cons p rest ih =>
      obtain ⟨a, b⟩ := p
      by_cases ha : a = k
      · subst ha
        simp [eget] at h
        simp [eset, h]
      · simp [eget, ha] at h
        simp [eset, ha, ih h]

theorem eget_eerase_self (e : Entry) (k : String) : eget (eerase e k) k = none := by
  induction e with
  | nil => simp [eerase, eget]
  | cons p rest ih =>
      obtain ⟨a, b⟩ := p
      by_cases ha : a = k
      · simp [eerase, ha, ih]
      · simp [eerase, eget, ha, ih]

theorem eget_eerase_ne (e : Entry) (k k' : String) (h : k ≠ k') :
    eget (eerase e k) k' = eget e k' := by
  induction e with
  | nil => simp [eerase]
  | cons p rest ih =>
      obtain ⟨a, b⟩ := p
      by_cases ha : a = k
      · subst ha
        simp [eerase, eget, h, ih]
      · simp [eerase, eget, ha, ih]

/-! ### Helper lemmas about the scan of `CombineSources` -/

theorem findWinner {α : Type} (p : α → Bool) :
    ∀ (pre : List α) (x : α) (post : List α),
      (∀ a ∈ pre, p a = false) → p x = true →
      (pre ++ x :: post).find? p = some x := by
  intro pre
  induction pre with
  | nil =>
      intro x post _ hx
      simp [List.find?, hx]
  | cons a t ih =>
      intro x post hpre hx
      have ha : p a = false := hpre a (List.mem_cons_self a t)
      simp only [List.cons_append, List.find?, ha]
      exact ih x post (fun b hb => hpre b (List.mem_cons_of_mem a hb)) hx

theorem combine_preserve (sources : List (String × String)) (target na : String)
    (e : Entry) (k : String) (h1 : k ≠ target) (h2 : k ≠ target ++ "_origin") :
    eget (combineSources sources target na e) k = eget e k := by
  rw [combineSources]
  cases sources.find? (fun p => qualifiesB e p.1 na) with
  | none => rw [eget_eset_ne _ _ _ _ (fun h => h2 h.symm), eget_eset_ne _ _ _ _ (fun h => h1 h.symm)]
  | some p => rw [eget_eset_ne _ _ _ _ (fun h => h2 h.symm), eget_eset_ne _ _ _ _ (fun h => h1 h.symm)]

/-! ### Helper lemmas about `DuplicateFields` and `RenameFields` -/

theorem dup_preserve :
    ∀ (pairs : List (String × String)) (e r : Entry) (k : String),
      duplicateFields pairs e = Except.ok r → k ∉ pairs.map Prod.snd →
      eget r k = eget e k := by
  intro pairs
  induction pairs with
  | nil =>
      intro e r k hok _
      simp [duplicateFields] at hok
      rw [hok]
  | cons p rest ih =>
      intro e r k hok hk
      obtain ⟨src, tgt⟩ := p
      simp only [List.map_cons, List.mem_cons, not_or] at hk
      rw [duplicateFields] at hok
      cases hv : eget e src with
      | none => rw [hv] at hok; exact absurd hok (by simp)
      | some v =>
          rw [hv] at hok
          rw [ih _ _ _ hok hk.2, eget_eset_ne _ _ _ _ (fun h => hk.1 h.symm)]

theorem rename_preserve :
    ∀ (pairs : List (String × String)) (e r : Entry) (k : String),
      renameFields pairs e = Except.ok r → k ∉ pairs.map Prod.snd →
      k ∉ pairs.map Prod.fst → eget r k = eget e k := by
  intro pairs
  induction pairs with
  | nil =>
      intro e r k hok _ _
      simp [renameFields] at hok
      rw [hok]
  | cons p rest ih =>
      intro e r k hok hkt hks
      obtain ⟨src, tgt⟩ := p
      simp only [List.map_cons, List.mem_cons, not_or] at hkt hks
      rw [renameFields] at hok
      cases hv : eget e src with
      | none => rw [hv] at hok; exact absurd hok (by simp)
      | some v =>
          rw [hv] at hok
          rw [ih _ _ _ hok hkt.2 hks.2,
            eget_eerase_ne _ _ _ (fun h => hks.1 h.symm),
            eget_eset_ne _ _ _ _ (fun h => hkt.1 h.symm)]

theorem add_preserve :
    ∀ (fields : List (String × Value)) (e : Entry) (k : String),
      k ∉ fields.map Prod.fst → eget (addConstantFields fields e) k = eget e k := by
  intro fields
  induction fields with
  | nil => intro e k _; rfl
  | cons p rest ih =>
      intro e k hk
      simp only [List.map_cons, List.mem_cons, not_or] at hk
      have hstep : addConstantFields (p :: rest) e = addConstantFields rest (eset e p.1 p.2) := rfl
      rw [hstep, ih _ _ hk.2, eget_eset_ne _ _ _ _ (fun h => hk.1 h.symm)]

theorem dup_ok :
    ∀ (pairs : List (String × String)) (e : Entry),
      (∀ t ∈ pairs.map Prod.snd, t ∉ pairs.map Prod.fst) →
      (pairs.map Prod.snd).Nodup →
      (∀ s ∈ pairs.map Prod.fst, (eget e s).isSome = true) →
      ∃ r, duplicateFields pairs e = Except.ok r ∧ ∀ p ∈ pairs, eget r p.2 = eget e p.1 := by
  intro pairs
  induction pairs with
  | nil => intro e _ _ _; exact ⟨e, rfl, by simp⟩
  | cons p rest ih =>
      intro e hdisj hnd hpres
      obtain ⟨src, tgt⟩ := p
      obtain ⟨v, hv⟩ := Option.isSome_iff_exists.mp (hpres src (by simp))
      have htgt : tgt ∉ src :: rest.map Prod.fst := by
        have := hdisj tgt (by simp)
        simpa using this
      simp only [List.mem_cons, not_or] at htgt
      have hdisj' : ∀ t ∈ rest.map Prod.snd, t ∉ rest.map Prod.fst := by
        intro t ht hc
        exact hdisj t (by simp [ht]) (by simp [hc])
      have hnd' : (rest.map Prod.snd).Nodup := (List.nodup_cons.mp (by simpa using hnd)).2
      have htgtnd : tgt ∉ rest.map Prod.snd := (List.nodup_cons.mp (by simpa using hnd)).1
      have htransfer : ∀ s' ∈ rest.map Prod.fst, eget (eset e tgt v) s' = eget e s' := by
        intro s' hs'
        exact eget_eset_ne _ _ _ _ (fun h => htgt.2 (h ▸ hs'))
      have hpres' : ∀ s' ∈ rest.map Prod.fst, (eget (eset e tgt v) s').isSome = true := by
        intro s' hs'
        rw [htransfer s' hs']
        exact hpres s' (by simp [hs'])
      obtain ⟨r, hok, hvals⟩ := ih (eset e tgt v) hdisj' hnd' hpres'
      refine ⟨r, ?_, ?_⟩
      · simp only [duplicateFields, hv]
        exact hok
      · intro q hq
        rcases List.mem_cons.mp hq with hq | hq
        · subst hq
          rw [dup_preserve rest (eset e tgt v) r tgt hok htgtnd, eget_eset_self, hv]
        · rw [hvals q hq]
          exact htransfer q.1 (List.mem_map_of_mem Prod.fst hq)

theorem dup_ok_sources_present :
    ∀ (pairs : List (String × String)) (e r : Entry),
      duplicateFields pairs e = Except.ok r →
      (∀ t ∈ pairs.map Prod.snd, t ∉ pairs.map Prod.fst) →
      ∀ s ∈ pairs.map Prod.fst, (eget e s).isSome = true := by
  intro pairs
  induction pairs with
  | nil => intro e r _ _ s hs; simp at hs
  | cons p rest ih =>
      intro e r hok hdisj s hs
      obtain ⟨src, tgt⟩ := p
      rw [duplicateFields] at hok
      cases hv : eget e src with
      | none => rw [hv] at hok; exact absurd hok (by simp)
      | some v =>
          rw [hv] at hok
          have htgt : tgt ∉ src :: rest.map Prod.fst := by
            have := hdisj tgt (by simp)
            simpa using this
          simp only [List.mem_cons, not_or] at htgt
          have hdisj' : ∀ t ∈ rest.map Prod.snd, t ∉ rest.map Prod.fst := by
            intro t ht hc
            exact hdisj t (by simp [ht]) (by simp [hc])
          simp only [List.map_cons, List.mem_cons] at hs
          rcases hs with hcase | hcase
          · subst hcase; simp [hv]
          · have := ih (eset e tgt v) r hok hdisj' s hcase
            rwa [eget_eset_ne _ _ _ _ (fun h => htgt.2 (by rw [h]; exact hcase))] at this

theorem dup_error :
    ∀ (pairs : List (String × String)) (e : Entry) (msg : String),
      duplicateFields pairs e = Except.error msg →
      (∀ t ∈ pairs.map Prod.snd, t ∉ pairs.map Prod.fst) →
      ∃ src e', src ∈ pairs.map Prod.fst ∧ eget e' src = none ∧ eget e src = none ∧
        msg = missingFieldMsg src e' := by
  intro pairs
  induction pairs with
  | nil => intro e msg h _; exact absurd h (by simp [duplicateFields])
  | cons p rest ih =>
      intro e msg herr hdisj
      obtain ⟨src, tgt⟩ := p
      rw [duplicateFields] at herr
      cases hv : eget e src with
      | none =>
          rw [hv] at herr
          refine ⟨src, e, by simp, hv, hv, ?_⟩
          injection herr with h
          exact h.symm
      | some v =>
          rw [hv] at herr
          have htgt : tgt ∉ src :: rest.map Prod.fst := by
            have := hdisj tgt (by simp)
            simpa using this
          simp only [List.mem_cons, not_or] at htgt
          have hdisj' : ∀ t ∈ rest.map Prod.snd, t ∉ rest.map Prod.fst := by
            intro t ht hc
            exact hdisj t (by simp [ht]) (by simp [hc])
          obtain ⟨s0, e0, hmem, h1, h2, h3⟩ := ih (eset e tgt v) msg herr hdisj'
          refine ⟨s0, e0, by simp [hmem], h1, ?_, h3⟩
          rwa [eget_eset_ne _ _ _ _ (fun h => htgt.2 (by rw [h]; exact hmem))] at h2

theorem rename_ok :
    ∀ (pairs : List (String × String)) (e : Entry),
      (∀ t ∈ pairs.map Prod.snd, t ∉ pairs.map Prod.fst) →
      (pairs.map Prod.snd).Nodup →
      (pairs.map Prod.fst).Nodup →
      (∀ s ∈ pairs.map Prod.fst, (eget e s).isSome = true) →
      ∃ r, renameFields pairs e = Except.ok r ∧
        (∀ p ∈ pairs, eget r p.2 = eget e p.1) ∧
        ∀ s ∈ pairs.map Prod.fst, eget r s = none := by
  intro pairs
  induction pairs with
  | nil => intro e _ _ _ _; exact ⟨e, rfl, by simp, by simp⟩
  | cons p rest ih =>
      intro e hdisj hndt hnds hpres
      obtain ⟨src, tgt⟩ := p
      obtain ⟨v, hv⟩ := Option.isSome_iff_exists.mp (hpres src (by simp))
      have htgt : tgt ∉ src :: List.map Prod.fst rest := by
        have := hdisj tgt (by simp)
        simpa using this
      simp only [List.mem_cons, not_or] at htgt
      have hsrc_nd : src ∉ List.map Prod.fst rest := (List.nodup_cons.mp (by simpa using hnds)).1
      have htgt_nd : tgt ∉ List.map Prod.snd rest := (List.nodup_cons.mp (by simpa using hndt)).1
      have hdisj' : ∀ t ∈ rest.map Prod.snd, t ∉ rest.map Prod.fst := by
        intro t ht hc
        exact hdisj t (by simp [ht]) (by simp [hc])
      have hsrc_not_tgt : src ∉ tgt :: List.map Prod.snd rest := by
        intro hc
        rcases List.mem_cons.mp hc with hc | hc
        · exact htgt.1 hc.symm
        · exact hdisj src (by simp [hc]) (by simp)
      simp only [List.mem_cons, not_or] at hsrc_not_tgt
      have htransfer : ∀ s' ∈ rest.map Prod.fst,
          eget (eerase (eset e tgt v) src) s' = eget e s' := by
        intro s' hs'
        rw [eget_eerase_ne _ _ _ (fun h => hsrc_nd (by rw [h]; exact hs')),
          eget_eset_ne _ _ _ _ (fun h => htgt.2 (by rw [h]; exact hs'))]
      have hpres' : ∀ s' ∈ rest.map Prod.fst,
          (eget (eerase (eset e tgt v) src) s').isSome = true := by
        intro s' hs'
        rw [htransfer s' hs']
        exact hpres s' (by simp [hs'])
      obtain ⟨r, hok, hvals, habs⟩ := ih (eerase (eset e tgt v) src)
        hdisj' (List.nodup_cons.mp (by simpa using hndt)).2
        (List.nodup_cons.mp (by simpa using hnds)).2 hpres'
      refine ⟨r, ?_, ?_, ?_⟩
      · simp only [renameFields, hv]
        exact hok
      · intro q hq
        rcases List.mem_cons.mp hq with hq | hq
        · subst hq
          rw [rename_preserve rest _ r tgt hok htgt_nd htgt.2,
            eget_eerase_ne _ _ _ (fun h => htgt.1 h.symm), eget_eset_self, hv]
        · rw [hvals q hq]
          exact htransfer q.1 (List.mem_map_of_mem Prod.fst hq)
      · intro s hs
        simp only [List.map_cons, List.mem_cons] at hs
        rcases hs with hs | hs
        · subst hs
          rw [rename_preserve rest _ r s hok hsrc_not_tgt.2 hsrc_nd, eget_eerase_self]
        · exact habs s hs

theorem rename_ok_sources_present :
    ∀ (pairs : List (String × String)) (e r : Entry),
      renameFields pairs e = Except.ok r →
      (∀ t ∈ pairs.map Prod.snd, t ∉ pairs.map Prod.fst) →
      (pairs.map Prod.fst).Nodup →
      ∀ s ∈ pairs.map Prod.fst, (eget e s).isSome = true := by
  intro pairs
  induction pairs with
  | nil => intro e r _ _ _ s hs; simp at hs
  | cons p rest ih =>
      intro e r hok hdisj hnds s hs
      obtain ⟨src, tgt⟩ := p
      rw [renameFields] at hok
      cases hv : eget e src with
      | none => rw [hv] at hok; exact absurd hok (by simp)
      | some v =>
          rw [hv] at hok
          have htgt : tgt ∉ src :: List.map Prod.fst rest := by
            have := hdisj tgt (by simp)
            simpa using this
          simp only [List.mem_cons, not_or] at htgt
          have hsrc_nd : src ∉ List.map Prod.fst rest :=
            (List.nodup_cons.mp (by simpa using hnds)).1
          have hdisj' : ∀ t ∈ rest.map Prod.snd, t ∉ rest.map Prod.fst := by
            intro t ht hc
            exact hdisj t (by simp [ht]) (by simp [hc])
          simp only [List.map_cons, List.mem_cons] at hs
          rcases hs with hcase | hcase
          · subst hcase; simp [hv]
          · have := ih (eerase (eset e tgt v) src) r hok hdisj'
              (List.nodup_cons.mp (by simpa using hnds)).2 s hcase
            rwa [eget_eerase_ne _ _ _ (fun h => hsrc_nd (by rw [h]; exact hcase)),
              eget_eset_ne _ _ _ _ (fun h => htgt.2 (by rw [h]; exact hcase))] at this

theorem rename_error :
    ∀ (pairs : List (String × String)) (e : Entry) (msg : String),
      renameFields pairs e = Except.error msg →
      (∀ t ∈ pairs.map Prod.snd, t ∉ pairs.map Prod.fst) →
      (pairs.map Prod.fst).Nodup →
      ∃ src e', src ∈ pairs.map Prod.fst ∧ eget e' src = none ∧ eget e src = none ∧
        msg = missingFieldMsg src e' := by
  intro pairs
  induction pairs with
  | nil => intro e msg h _ _; exact absurd h (by simp [renameFields])
  | cons p rest ih =>
      intro e msg herr hdisj hnds
      obtain ⟨src, tgt⟩ := p
      rw [renameFields] at herr
      cases hv : eget e src with
      | none =>
          rw [hv] at herr
          refine ⟨src, e, by simp, hv, hv, ?_⟩
          injection herr with h
          exact h.symm
      | some v =>
          rw [hv] at herr
          have htgt : tgt ∉ src :: List.map Prod.fst rest := by
            have := hdisj tgt (by simp)
            simpa using this
          simp only [List.mem_cons, not_or] at htgt
          have hsrc_nd : src ∉ List.map Prod.fst rest :=
            (List.nodup_cons.mp (by simpa using hnds)).1
          have hdisj' : ∀ t ∈ rest.map Prod.snd, t ∉ rest.map Prod.fst := by
            intro t ht hc
            exact hdisj t (by simp [ht]) (by simp [hc])
          obtain ⟨s0, e0, hmem, h1, h2, h3⟩ := ih (eerase (eset e tgt v) src) msg herr hdisj'
            (List.nodup_cons.mp (by simpa using hnds)).2
          refine ⟨s0, e0, by simp [hmem], h1, ?_, h3⟩
          rwa [eget_eerase_ne _ _ _ (fun h => hsrc_nd (by rw [h]; exact hmem)),
            eget_eset_ne _ _ _ _ (fun h => htgt.2 (by rw [h]; exact hmem))] at h2

/-! ### Helper lemmas about the segmentation operator -/

theorem mkSegment_duration (e : Entry) (dur off : ℚ) (dt : Bool) :
    eget (mkSegment e dur off dt) "duration" = some (Value.num dur) := by
  rw [mkSegment]
  cases dt with
  | false =>
      simp only [Bool.false_eq_true, if_false]
      rw [eget_eset_ne _ _ _ _ (by decide), eget_eset_self]
  | true =>
      simp only [if_true]
      rw [eget_eerase_ne _ _ _ (by decide), eget_eset_ne _ _ _ _ (by decide), eget_eset_self]

theorem mkSegment_offset (e : Entry) (dur off : ℚ) (dt : Bool) :
    eget (mkSegment e dur off dt) "offset" = some (Value.num off) := by
  rw [mkSegment]
  cases dt with
  | false =>
      simp only [Bool.false_eq_true, if_false]
      rw [eget_eset_self]
  | true =>
      simp only [if_true]
      rw [eget_eerase_ne _ _ _ (by decide), eget_eset_self]

theorem mkSegment_other (e : Entry) (dur off : ℚ) (dt : Bool) (k : String)
    (h1 : k ≠ "duration") (h2 : k ≠ "offset") (h3 : dt = true → k ≠ "text") :
    eget (mkSegment e dur off dt) k = eget e k := by
  rw [mkSegment]
  cases dt with
  | false =>
      simp only [Bool.false_eq_true, if_false]
      rw [eget_eset_ne _ _ _ _ (fun h => h2 h.symm), eget_eset_ne _ _ _ _ (fun h => h1 h.symm)]
  | true =>
      simp only [if_true]
      rw [eget_eerase_ne _ _ _ (fun h => (h3 rfl) h.symm),
        eget_eset_ne _ _ _ _ (fun h => h2 h.symm), eget_eset_ne _ _ _ _ (fun h => h1 h.symm)]

theorem filterMap_congr_of_mem {α β : Type} (f g : α → Option β) :
    ∀ (l : List α), (∀ a ∈ l, f a = g a) → l.filterMap f = l.filterMap g := by
  intro l
  induction l with
  | nil => intro _; rfl
  | cons a t ih =>
      intro h
      rw [List.filterMap_cons, List.filterMap_cons, h a (by simp),
        ih (fun b hb => h b (by simp [hb]))]

theorem filterMap_of_all_some {α β : Type} (f : α → β) :
    ∀ (l : List α), l.filterMap (fun a => some (f a)) = l.map f := by
  intro l
  induction l with
  | nil => rfl
  | cons a t ih => rw [List.filterMap_cons, List.map_cons, ih]

theorem floor_nonneg_of (s d : ℚ) (hd : 0 ≤ d) (hs : 0 < s) : 0 ≤ ⌊d / s⌋ :=
  Int.floor_nonneg.mpr (div_nonneg hd hs.le)

theorem splitRemainder_nonneg (s d : ℚ) (_hd : 0 ≤ d) (hs : 0 < s) :
    0 ≤ splitRemainder s d := by
  rw [splitRemainder, sub_nonneg]
  have h1 : ((⌊d / s⌋ : ℤ) : ℚ) ≤ d / s := Int.floor_le _
  calc s * ((⌊d / s⌋ : ℤ) : ℚ) ≤ s * (d / s) := by
        exact mul_le_mul_of_nonneg_left h1 hs.le
    _ = d := by field_simp

theorem splitRemainder_lt (s d : ℚ) (hs : 0 < s) : splitRemainder s d < s := by
  rw [splitRemainder]
  have h1 : d / s < (⌊d / s⌋ : ℤ) + 1 := Int.lt_floor_add_one _
  have h2 : d < s * ((⌊d / s⌋ : ℤ) + 1) := by
    have := mul_lt_mul_of_pos_left h1 hs
    calc d = s * (d / s) := by field_simp
      _ < s * (((⌊d / s⌋ : ℤ) : ℚ) + 1) := by linarith
  nlinarith [h2]

theorem map_const_eq_replicate {α β : Type} (b : β) :
    ∀ l : List α, l.map (fun _ => b) = List.replicate l.length b := by
  intro l
  induction l with
  | nil => rfl
  | cons a t ih => rw [List.map_cons, ih, List.length_cons, List.replicate_succ]

theorem durationsOf_single (e : Entry) (dur off : ℚ) (dt : Bool) :
    durationsOf [mkSegment e dur off dt] = [dur] := by
  rw [durationsOf, List.filterMap_cons, mkSegment_duration]
  rfl

theorem offsetsOf_single (e : Entry) (dur off : ℚ) (dt : Bool) :
    offsetsOf [mkSegment e dur off dt] = [off] := by
  rw [offsetsOf, List.filterMap_cons, mkSegment_offset]
  rfl

theorem durationsOf_main (s : ℚ) (dt : Bool) (e : Entry) (n : ℕ) (f : ℕ → ℚ) :
    durationsOf ((List.range n).map (fun i => mkSegment e s (f i) dt)) =
      List.replicate n s := by
  rw [durationsOf, List.filterMap_map]
  rw [filterMap_congr_of_mem _ (fun _ => some s) _
    (fun i _ => by simp only [Function.comp_apply, mkSegment_duration]; rfl)]
  rw [filterMap_of_all_some (fun _ => s), map_const_eq_replicate, List.length_range]

theorem offsetsOf_main (s : ℚ) (dt : Bool) (e : Entry) (n : ℕ) (f : ℕ → ℚ) :
    offsetsOf ((List.range n).map (fun i => mkSegment e s (f i) dt)) =
      (List.range n).map f := by
  rw [offsetsOf, List.filterMap_map]
  rw [filterMap_congr_of_mem _ (fun i => some (f i)) _
    (fun i _ => by simp only [Function.comp_apply, mkSegment_offset]; rfl)]
  rw [filterMap_of_all_some f]

theorem durationsOf_splitSegs (s : ℚ) (dl dt : Bool) (e : Entry) (d : ℚ) :
    durationsOf (splitSegs s dl dt e d) =
      List.replicate (⌊d / s⌋).toNat s ++
        (if dl = false ∧ 0 < splitRemainder s d then [splitRemainder s d] else []) := by
  have hdef : ∀ l : List Entry,
      l.filterMap (fun m => numOf (eget m "duration")) = durationsOf l := fun _ => rfl
  rw [splitSegs]
  by_cases hc : dl = false ∧ 0 < splitRemainder s d
  · rw [if_pos hc, if_pos hc]
    rw [durationsOf, List.filterMap_append]
    simp only [hdef]
    rw [durationsOf_main s dt e _ (fun i => ((i : ℕ) : ℚ) * s), durationsOf_single]
  · rw [if_neg hc, if_neg hc, List.append_nil]
    exact durationsOf_main s dt e _ (fun i => ((i : ℕ) : ℚ) * s)

theorem offsetsOf_splitSegs (s : ℚ) (dl dt : Bool) (e : Entry) (d : ℚ) :
    offsetsOf (splitSegs s dl dt e d) =
      (List.range (⌊d / s⌋).toNat).map (fun i => ((i : ℕ) : ℚ) * s) ++
        (if dl = false ∧ 0 < splitRemainder s d then [s * ((⌊d / s⌋ : ℤ) : ℚ)] else []) := by
  have hdef : ∀ l : List Entry,
      l.filterMap (fun m => numOf (eget m "offset")) = offsetsOf l := fun _ => rfl
  rw [splitSegs]
  by_cases hc : dl = false ∧ 0 < splitRemainder s d
  · rw [if_pos hc, if_pos hc]
    rw [offsetsOf, List.filterMap_append]
    simp only [hdef]
    rw [offsetsOf_main s dt e _ (fun i => ((i : ℕ) : ℚ) * s), offsetsOf_single]
  · rw [if_neg hc, if_neg hc, List.append_nil]
    exact offsetsOf_main s dt e _ (fun i => ((i : ℕ) : ℚ) * s)

theorem combine_winner (sources : List (String × String)) (target na : String) (e : Entry)
    (pre post : List (String × String)) (f lbl : String) (v : Value)
    (hdecomp : sources = pre ++ (f, lbl) :: post)
    (hpre : ∀ p ∈ pre, qualifiesB e p.1 na = false)
    (hget : eget e f = some v) (hv : v ≠ Value.str na) :
    combineSources sources target na e =
      eset (eset e target v) (target ++ "_origin") (Value.str lbl) := by
  have hq : qualifiesB e f na = true := by
    rw [qualifiesB, hget]
    simpa using hv
  rw [combineSources, hdecomp,
    findWinner (fun p => qualifiesB e p.1 na) pre (f, lbl) post hpre hq]
  show eset (eset e target ((eget e f).getD (Value.str na))) (target ++ "_origin") (Value.str lbl) =
    eset (eset e target v) (target ++ "_origin") (Value.str lbl)
  rw [hget]
  rfl

theorem combine_fallback (sources : List (String × String)) (target na : String) (e : Entry)
    (hall : ∀ p ∈ sources, qualifiesB e p.1 na = false) :
    combineSources sources target na e =
      eset (eset e target (Value.str na)) (target ++ "_origin") (Value.str na) := by
  rw [combineSources, List.find?_eq_none.mpr (fun p hp => by simp [hall p hp])]

/-- C3: `CombineSources` scans the source list in declared order and the
first source field present in the entry with a value different from the
sentinel wins: its value goes to the target field and its origin label to
the `<target>_origin` field; an absent field and a field equal to the
sentinel are both skipped; if no source qualifies both fields get the
sentinel — in particular `{"text_pc": "n/a"}` with the single source
`text_pc/original` and target `text` yields `text = "n/a"` and
`text_origin = "n/a"`. -/
theorem combineSources_first_match (sources : List (String × String)) (target na : String)
    (e : Entry) :
    (∀ (pre post : List (String × String)) (f lbl : String) (v : Value),
      sources = pre ++ (f, lbl) :: post →
      (∀ p ∈ pre, qualifiesB e p.1 na = false) →
      eget e f = some v → v ≠ Value.str na →
      combineSources sources target na e =
        eset (eset e target v) (target ++ "_origin") (Value.str lbl)) ∧
    ((∀ p ∈ sources, qualifiesB e p.1 na = false) →
      combineSources sources target na e =
        eset (eset e target (Value.str na)) (target ++ "_origin") (Value.str na)) ∧
    (∀ f, eget e f = none ∨ eget e f = some (Value.str na) → qualifiesB e f na = false) ∧
    combineSources [("text_pc", "original")] "text" "n/a" [("text_pc", Value.str "n/a")] =
      [("text_pc", Value.str "n/a"), ("text", Value.str "n/a"), ("text_origin", Value.str "n/a")] := by
  refine ⟨?_, ?_, ?_, by decide⟩
  · intro pre post f lbl v hdecomp hpre hget hv
    exact combine_winner sources target na e pre post f lbl v hdecomp hpre hget hv
  · intro hall
    exact combine_fallback sources target na e hall
  · intro f hf
    rcases hf with hf | hf <;> simp [qualifiesB, hf]

/-- C3 witness: a concrete entry where the single qualifying source wins. -/
theorem combineSources_first_match_instance :
    combineSources [("a", "orig")] "t" "n/a" [("a", Value.str "x")] =
      eset (eset [("a", Value.str "x")] "t" (Value.str "x")) ("t" ++ "_origin") (Value.str "orig") :=
  (combineSources_first_match [("a", "orig")] "t" "n/a" [("a", Value.str "x")]).1
    [] [] "a" "orig" (Value.str "x") rfl (by simp) rfl (by decide)

/-- C9 counterexample: with sources `[text/no_pc, text_pc/synthetic]` and
target `text`, the entry `{"text_pc": "hello"}` is populated by the second
source on the first run, but on the second run the now-present target field
`text` (an earlier source) wins and rewrites `text_origin` from
`synthetic` to `no_pc`, so re-application changes the entry. -/
theorem combineSources_reapply_changes_origin :
    combineSources [("text", "no_pc"), ("text_pc", "synthetic")] "text" "n/a"
        [("text_pc", Value.str "hello")] =
      [("text_pc", Value.str "hello"), ("text", Value.str "hello"),
        ("text_origin", Value.str "synthetic")] ∧
    combineSources [("text", "no_pc"), ("text_pc", "synthetic")] "text" "n/a"
        [("text_pc", Value.str "hello"), ("text", Value.str "hello"),
          ("text_origin", Value.str "synthetic")] ≠
      [("text_pc", Value.str "hello"), ("text", Value.str "hello"),
        ("text_origin", Value.str "synthetic")] := by
  constructor
  · decide
  · decide

/-- C9 (amended): re-applying `CombineSources` with the same configuration
leaves the entry unchanged once the target has been populated with a
non-sentinel value from a source of the preference list, provided none of
the source fields strictly before the winning source equals the target or
the `<target>_origin` field, and the winning source's field is not
`<target>_origin` itself (without this proviso re-application can change
the entry, see the counterexample). -/
theorem combineSources_idempotent (sources : List (String × String)) (target na : String)
    (e : Entry) (pre post : List (String × String)) (f lbl : String) (v : Value)
    (hdecomp : sources = pre ++ (f, lbl) :: post)
    (hpre : ∀ p ∈ pre, qualifiesB e p.1 na = false)
    (hget : eget e f = some v) (hv : v ≠ Value.str na)
    (hpre_fresh : ∀ p ∈ pre, p.1 ≠ target ∧ p.1 ≠ target ++ "_origin")
    (hf_origin : f ≠ target ++ "_origin") :
    combineSources sources target na (combineSources sources target na e) =
      combineSources sources target na e := by
  have htarget_ne : target ≠ target ++ "_origin" := by
    intro h
    have hlen : target.length = target.length + ("_origin" : String).length := by
      conv_lhs => rw [h]
      exact String.length_append _ _
    have : ("_origin" : String).length = 7 := rfl
    omega
  have h1 : combineSources sources target na e =
      eset (eset e target v) (target ++ "_origin") (Value.str lbl) :=
    combine_winner sources target na e pre post f lbl v hdecomp hpre hget hv
  have he1_target : eget (combineSources sources target na e) target = some v := by
    rw [h1, eget_eset_ne _ _ _ _ (fun h => htarget_ne h.symm), eget_eset_self]
  have he1_origin : eget (combineSources sources target na e) (target ++ "_origin") =
      some (Value.str lbl) := by
    rw [h1, eget_eset_self]
  have he1_f : eget (combineSources sources target na e) f = some v := by
    by_cases hf : f = target
    · rw [hf]
      exact he1_target
    · rw [h1, eget_eset_ne _ _ _ _ (fun h => hf_origin h.symm),
        eget_eset_ne _ _ _ _ (fun h => hf h.symm), hget]
  have hpre1 : ∀ p ∈ pre, qualifiesB (combineSources sources target na e) p.1 na = false := by
    intro p hp
    have heq : eget (combineSources sources target na e) p.1 = eget e p.1 := by
      rw [h1, eget_eset_ne _ _ _ _ (fun h => (hpre_fresh p hp).2 h.symm),
        eget_eset_ne _ _ _ _ (fun h => (hpre_fresh p hp).1 h.symm)]
    rw [qualifiesB, heq, ← qualifiesB]
    exact hpre p hp
  have h2 : combineSources sources target na (combineSources sources target na e) =
      eset (eset (combineSources sources target na e) target v)
        (target ++ "_origin") (Value.str lbl) :=
    combine_winner sources target na _ pre post f lbl v hdecomp hpre1 he1_f hv
  rw [h2, eset_eq_self _ _ _ he1_target]
  exact eset_eq_self _ _ _ he1_origin

/-- C9 witness: a single-source configuration where re-application fixes
the populated entry. -/
theorem combineSources_idempotent_instance :
    combineSources [("text_pc", "original")] "text" "n/a"
        (combineSources [("text_pc", "original")] "text" "n/a" [("text_pc", Value.str "hi")]) =
      combineSources [("text_pc", "original")] "text" "n/a" [("text_pc", Value.str "hi")] :=
  combineSources_idempotent [("text_pc", "original")] "text" "n/a"
    [("text_pc", Value.str "hi")] [] [] "text_pc" "original" (Value.str "hi")
    rfl (by simp) rfl (by decide) (by simp) (by decide)

/-- C5 counterexample: with the chained configuration
`{"a": "b", "b": "c"}` and the entry `{"a": "x", "b": "y"}` (all source
fields present), `DuplicateFields` succeeds but the target `c` receives
`"x"` — the value `b` acquired from the earlier pair — instead of the
value `"y"` the source field `b` had in the original entry. -/
theorem duplicateFields_chain_counterexample :
    duplicateFields [("a", "b"), ("b", "c")] [("a", Value.str "x"), ("b", Value.str "y")] =
      Except.ok [("a", Value.str "x"), ("b", Value.str "x"), ("c", Value.str "x")] ∧
    eget [("a", Value.str "x"), ("b", Value.str "y")] "b" = some (Value.str "y") ∧
    Value.str "x" ≠ Value.str "y" := ⟨rfl, rfl, by decide⟩

/-- C5 (amended): the pairs are processed sequentially on the mutated
entry, so the claim holds under the additional proviso that the configured
target fields are pairwise distinct and no target field occurs among the
source fields (ruling out chains): then `DuplicateFields` and
`RenameFields` succeed and give each target field the value the
corresponding source field had in the original entry, and `RenameFields`
removes every source field. -/
theorem duplicateRename_values (pairs : List (String × String)) (e : Entry)
    (hdisj : ∀ t ∈ pairs.map Prod.snd, t ∉ pairs.map Prod.fst)
    (hndt : (pairs.map Prod.snd).Nodup)
    (hnds : (pairs.map Prod.fst).Nodup)
    (hpres : ∀ s ∈ pairs.map Prod.fst, (eget e s).isSome = true) :
    (∃ r, duplicateFields pairs e = Except.ok r ∧
      ∀ p ∈ pairs, eget r p.2 = eget e p.1) ∧
    (∃ r, renameFields pairs e = Except.ok r ∧
      (∀ p ∈ pairs, eget r p.2 = eget e p.1) ∧
      ∀ s ∈ pairs.map Prod.fst, eget r s = none) :=
  ⟨dup_ok pairs e hdisj hndt hpres, rename_ok pairs e hdisj hndt hnds hpres⟩

/-- C5 witness: duplicating and renaming `a` to `b` on `{"a": "x"}`. -/
theorem duplicateRename_values_instance :
    (∃ r, duplicateFields [("a", "b")] [("a", Value.str "x")] = Except.ok r ∧
      ∀ p ∈ [("a", "b")], eget r p.2 = eget [("a", Value.str "x")] p.1) ∧
    (∃ r, renameFields [("a", "b")] [("a", Value.str "x")] = Except.ok r ∧
      (∀ p ∈ [("a", "b")], eget r p.2 = eget [("a", Value.str "x")] p.1) ∧
      ∀ s ∈ [("a", "b")].map Prod.fst, eget r s = none) :=
  duplicateRename_values [("a", "b")] [("a", Value.str "x")]
    (by decide) (by decide) (by decide) (by decide)

/-- C6 counterexample: the configuration `{"a": "b", "b": "c"}` contains
the source field `b`, which is absent from the entry `{"a": "x"}`, yet
`DuplicateFields` returns a result instead of raising: the presence check
is made against the mutated entry, where the earlier pair has already
created `b`. -/
theorem duplicateFields_absent_source_ok :
    duplicateFields [("a", "b"), ("b", "c")] [("a", Value.str "x")] =
      Except.ok [("a", Value.str "x"), ("b", Value.str "x"), ("c", Value.str "x")] ∧
    eget [("a", Value.str "x")] "b" = none := ⟨rfl, rfl⟩

theorem dup_ok_of_present :
    ∀ (pairs : List (String × String)) (e : Entry),
      (∀ t ∈ pairs.map Prod.snd, t ∉ pairs.map Prod.fst) →
      (∀ s ∈ pairs.map Prod.fst, (eget e s).isSome = true) →
      ∃ r, duplicateFields pairs e = Except.ok r := by
  intro pairs
  induction pairs with
  | nil => intro e _ _; exact ⟨e, rfl⟩
  | cons p rest ih =>
      intro e hdisj hpres
      obtain ⟨src, tgt⟩ := p
      obtain ⟨v, hv⟩ := Option.isSome_iff_exists.mp (hpres src (by simp))
      have htgt : tgt ∉ src :: List.map Prod.fst rest := by
        have := hdisj tgt (by simp)
        simpa using this
      simp only [List.mem_cons, not_or] at htgt
      have hdisj' : ∀ t ∈ rest.map Prod.snd, t ∉ rest.map Prod.fst := by
        intro t ht hc
        exact hdisj t (by simp [ht]) (by simp [hc])
      have hpres' : ∀ s' ∈ rest.map Prod.fst, (eget (eset e tgt v) s').isSome = true := by
        intro s' hs'
        rw [eget_eset_ne _ _ _ _ (fun h => htgt.2 (by rw [h]; exact hs'))]
        exact hpres s' (by simp [hs'])
      obtain ⟨r, hok⟩ := ih (eset e tgt v) hdisj' hpres'
      refine ⟨r, ?_⟩
      simp only [duplicateFields, hv]
      exact hok

theorem rename_ok_of_present :
    ∀ (pairs : List (String × String)) (e : Entry),
      (∀ t ∈ pairs.map Prod.snd, t ∉ pairs.map Prod.fst) →
      (pairs.map Prod.fst).Nodup →
      (∀ s ∈ pairs.map Prod.fst, (eget e s).isSome = true) →
      ∃ r, renameFields pairs e = Except.ok r := by
  intro pairs
  induction pairs with
  | nil => intro e _ _ _; exact ⟨e, rfl⟩
  | cons p rest ih =>
      intro e hdisj hnds hpres
      obtain ⟨src, tgt⟩ := p
      obtain ⟨v, hv⟩ := Option.isSome_iff_exists.mp (hpres src (by simp))
      have htgt : tgt ∉ src :: List.map Prod.fst rest := by
        have := hdisj tgt (by simp)
        simpa using this
      simp only [List.mem_cons, not_or] at htgt
      have hsrc_nd : src ∉ List.map Prod.fst rest :=
        (List.nodup_cons.mp (by simpa using hnds)).1
      have hdisj' : ∀ t ∈ rest.map Prod.snd, t ∉ rest.map Prod.fst := by
        intro t ht hc
        exact hdisj t (by simp [ht]) (by simp [hc])
      have hpres' : ∀ s' ∈ rest.map Prod.fst,
          (eget (eerase (eset e tgt v) src) s').isSome = true := by
        intro s' hs'
        rw [eget_eerase_ne _ _ _ (fun h => hsrc_nd (by rw [h]; exact hs')),
          eget_eset_ne _ _ _ _ (fun h => htgt.2 (by rw [h]; exact hs'))]
        exact hpres s' (by simp [hs'])
      obtain ⟨r, hok⟩ := ih (eerase (eset e tgt v) src) hdisj'
        (List.nodup_cons.mp (by simpa using hnds)).2 hpres'
      refine ⟨r, ?_⟩
      simp only [renameFields, hv]
      exact hok

/-- C6 (amended): each source field is checked against the current entry
when its pair is processed, and the first absent one raises the
`ValueError` whose message names the field and the entry at that moment.
When no configured target field occurs among the source fields (the
source fields themselves are keys of a Python dict and hence unique),
this is equivalent to the claim: the operator returns a result iff every
configured source field is present in the input entry, and on failure the
message names a source field that is absent from the input entry. -/
theorem duplicateRename_missing_field (pairs : List (String × String)) (e : Entry)
    (hdisj : ∀ t ∈ pairs.map Prod.snd, t ∉ pairs.map Prod.fst)
    (hnds : (pairs.map Prod.fst).Nodup) :
    (exceptOk (duplicateFields pairs e) = true ↔
      ∀ s ∈ pairs.map Prod.fst, (eget e s).isSome = true) ∧
    (exceptOk (renameFields pairs e) = true ↔
      ∀ s ∈ pairs.map Prod.fst, (eget e s).isSome = true) ∧
    (∀ msg, duplicateFields pairs e = Except.error msg →
      ∃ src e', src ∈ pairs.map Prod.fst ∧ eget e src = none ∧
        msg = missingFieldMsg src e') ∧
    (∀ msg, renameFields pairs e = Except.error msg →
      ∃ src e', src ∈ pairs.map Prod.fst ∧ eget e src = none ∧
        msg = missingFieldMsg src e') := by
  refine ⟨?_, ?_, ?_, ?_⟩
  · constructor
    · intro hok
      cases h : duplicateFields pairs e with
      | ok r => exact dup_ok_sources_present pairs e r h hdisj
      | error msg => rw [h] at hok; exact absurd hok (by simp [exceptOk])
    · intro hpres
      obtain ⟨r, hok⟩ := dup_ok_of_present pairs e hdisj hpres
      rw [hok]
      rfl
  · constructor
    · intro hok
      cases h : renameFields pairs e with
      | ok r => exact rename_ok_sources_present pairs e r h hdisj hnds
      | error msg => rw [h] at hok; exact absurd hok (by simp [exceptOk])
    · intro hpres
      obtain ⟨r, hok⟩ := rename_ok_of_present pairs e hdisj hnds hpres
      rw [hok]
      rfl
  · intro msg herr
    obtain ⟨src, e', hmem, _, h2, h3⟩ := dup_error pairs e msg herr hdisj
    exact ⟨src, e', hmem, h2, h3⟩
  · intro msg herr
    obtain ⟨src, e', hmem, _, h2, h3⟩ := rename_error pairs e msg herr hdisj hnds
    exact ⟨src, e', hmem, h2, h3⟩

/-- C6 witness: with the single pair `a → b` on the empty entry both
operators fail, and the reported message names `a` and the entry. -/
theorem duplicateRename_missing_field_instance :
    (exceptOk (duplicateFields [("a", "b")] []) = true ↔
      ∀ s ∈ [("a", "b")].map Prod.fst, (eget [] s).isSome = true) ∧
    (exceptOk (renameFields [("a", "b")] []) = true ↔
      ∀ s ∈ [("a", "b")].map Prod.fst, (eget [] s).isSome = true) ∧
    (∀ msg, duplicateFields [("a", "b")] [] = Except.error msg →
      ∃ src e', src ∈ [("a", "b")].map Prod.fst ∧ eget [] src = none ∧
        msg = missingFieldMsg src e') ∧
    (∀ msg, renameFields [("a", "b")] [] = Except.error msg →
      ∃ src e', src ∈ [("a", "b")].map Prod.fst ∧ eget [] src = none ∧
        msg = missingFieldMsg src e') :=
  duplicateRename_missing_field [("a", "b")] [] (by decide) (by decide)

/-- C7: every per-entry operator leaves a field it is not configured to
alter, rename or drop untouched, each operator excluding only its own
written fields: the target and origin fields for `CombineSources`, the
constant fields for `AddConstantFields`, the target (and, for rename, the
source) fields for `DuplicateFields`/`RenameFields`, the `duration` and
`offset` fields — plus `text` only when `drop_text` is set — for
`SplitOnFixedDuration`, the `audio_filepath` field for
`ChangeToRelativePath`, and nothing at all for `RemoveExtraSymbols`
(whose returned entry is the input entry): every entry each operator
returns carries any other field with its original value. -/
theorem processors_preserve_untouched_fields (e : Entry) (k : String)
    (sources : List (String × String)) (target na : String)
    (fields : List (String × Value)) (pairs rpairs : List (String × String))
    (s : ℚ) (dl dt : Bool) (ignore lang textKey : String) (relpath : String → String) :
    (k ≠ target → k ≠ target ++ "_origin" →
      eget (combineSources sources target na e) k = eget e k) ∧
    (k ∉ fields.map Prod.fst → eget (addConstantFields fields e) k = eget e k) ∧
    (∀ r, duplicateFields pairs e = Except.ok r → k ∉ pairs.map Prod.snd →
      eget r k = eget e k) ∧
    (∀ r, renameFields rpairs e = Except.ok r → k ∉ rpairs.map Prod.snd →
      k ∉ rpairs.map Prod.fst → eget r k = eget e k) ∧
    (∀ segs seg, splitOnFixedDuration s dl dt e = some segs → seg ∈ segs →
      k ≠ "duration" → k ≠ "offset" → (dt = true → k ≠ "text") →
      eget seg k = eget e k) ∧
    (∀ r, changeToRelativePath relpath e = some r → k ≠ "audio_filepath" →
      eget r k = eget e k) ∧
    (∀ r m, removeExtraSymbols ignore lang textKey e = some (r, m) → eget r k = eget e k) := by
  refine ⟨combine_preserve sources target na e k,
    add_preserve fields e k,
    fun r hr h4 => dup_preserve pairs e r k hr h4,
    fun r hr h5 h6 => rename_preserve rpairs e r k hr h5 h6, ?_, ?_, ?_⟩
  · intro segs seg hsplit hmem h7 h8 h9
    rw [splitOnFixedDuration] at hsplit
    cases hd : eget e "duration" with
    | none => rw [hd] at hsplit; exact absurd hsplit (by simp)
    | some v =>
        rw [hd] at hsplit
        cases v with
        | str t => exact absurd hsplit (by simp)
        | bool b => exact absurd hsplit (by simp)
        | num d =>
            have hsegs : segs = splitSegs s dl dt e d := by
              injection hsplit with h
              exact h.symm
            subst hsegs
            rw [splitSegs] at hmem
            by_cases hc : dl = false ∧ 0 < splitRemainder s d
            · rw [if_pos hc] at hmem
              rcases List.mem_append.mp hmem with hm | hm
              · obtain ⟨i, _, hi⟩ := List.mem_map.mp hm
                rw [← hi]
                exact mkSegment_other e s _ dt k h7 h8 h9
              · rw [List.mem_singleton.mp hm]
                exact mkSegment_other e _ _ dt k h7 h8 h9
            · rw [if_neg hc] at hmem
              obtain ⟨i, _, hi⟩ := List.mem_map.mp hmem
              rw [← hi]
              exact mkSegment_other e s _ dt k h7 h8 h9
  · intro r hr h10
    rw [changeToRelativePath] at hr
    cases hp : eget e "audio_filepath" with
    | none => rw [hp] at hr; exact absurd hr (by simp)
    | some v =>
        rw [hp] at hr
        cases v with
        | num q => exact absurd hr (by simp)
        | bool b => exact absurd hr (by simp)
        | str p =>
            have : r = eset e "audio_filepath" (Value.str (relpath p)) := by
              injection hr with h
              exact h.symm
            rw [this]
            exact eget_eset_ne _ _ _ _ (fun h => h10 h.symm)
  · intro r m hr
    rw [removeExtraSymbols] at hr
    cases ht : eget e textKey with
    | none => rw [ht] at hr; exact absurd hr (by simp)
    | some v =>
        rw [ht] at hr
        cases v with
        | num q => exact absurd hr (by simp)
        | bool b => exact absurd hr (by simp)
        | str original =>
            have : r = e := by
              injection hr with h
              exact (congrArg Prod.fst h).symm
            rw [this]

/-- C7 witness: a concrete entry and configuration where the field `text`
— which `CombineSources` is here configured not to touch and which
segmentation with `drop_text = false` retains — survives every operator
unchanged. -/
theorem processors_preserve_untouched_fields_instance :
    eget (combineSources [("text_pc", "original")] "text_final" "n/a"
        [("text", Value.str "v"), ("text_pc", Value.str "x")]) "text" =
      eget [("text", Value.str "v"), ("text_pc", Value.str "x")] "text" ∧
    eget (addConstantFields [("label", Value.str "en")]
        [("text", Value.str "v"), ("text_pc", Value.str "x")]) "text" =
      eget [("text", Value.str "v"), ("text_pc", Value.str "x")] "text" ∧
    (∀ r, duplicateFields [("text_pc", "text_copy")]
        [("text", Value.str "v"), ("text_pc", Value.str "x")] = Except.ok r →
      eget r "text" = eget [("text", Value.str "v"), ("text_pc", Value.str "x")] "text") ∧
    (∀ r, renameFields [("text_pc", "text_new")]
        [("text", Value.str "v"), ("text_pc", Value.str "x")] = Except.ok r →
      eget r "text" = eget [("text", Value.str "v"), ("text_pc", Value.str "x")] "text") ∧
    (∀ segs seg, splitOnFixedDuration 2 true false
        [("text", Value.str "v"), ("text_pc", Value.str "x")] = some segs → seg ∈ segs →
      eget seg "text" = eget [("text", Value.str "v"), ("text_pc", Value.str "x")] "text") ∧
    (∀ r, changeToRelativePath (fun p => p)
        [("text", Value.str "v"), ("text_pc", Value.str "x")] = some r →
      eget r "text" = eget [("text", Value.str "v"), ("text_pc", Value.str "x")] "text") ∧
    (∀ r m, removeExtraSymbols "!" "armenian" "text_pc"
        [("text", Value.str "v"), ("text_pc", Value.str "x")] = some (r, m) →
      eget r "text" = eget [("text", Value.str "v"), ("text_pc", Value.str "x")] "text") := by
  have h := processors_preserve_untouched_fields
    [("text", Value.str "v"), ("text_pc", Value.str "x")] "text"
    [("text_pc", "original")] "text_final" "n/a" [("label", Value.str "en")]
    [("text_pc", "text_copy")] [("text_pc", "text_new")] 2 true false "!" "armenian"
    "text_pc" (fun p => p)
  exact ⟨h.1 (by decide) (by decide), h.2.1 (by decide),
    fun r hr => h.2.2.1 r hr (by decide),
    fun r hr => h.2.2.2.1 r hr (by decide) (by decide),
    fun segs seg h1 h2 =>
      h.2.2.2.2.1 segs seg h1 h2 (by decide) (by decide) (by decide),
    fun r hr => h.2.2.2.2.2.1 r hr (by decide),
    fun r m hr => h.2.2.2.2.2.2 r m hr⟩

/-- C1: for an entry whose `duration` is a number `d ≥ 0` and a
configuration with `segment_duration = s > 0`, `SplitOnFixedDuration`
emits exactly `⌊d / s⌋` main segments in index order — the `i`-th a copy
of the entry with `duration = s` and `offset = i * s` (modulo the
configured `text` dropping) — plus, when `drop_last` is false and the
remainder `d - s * ⌊d / s⌋` is positive, one further segment carrying the
remainder at offset `s * ⌊d / s⌋`; in particular `{"duration": 7.5}` with
`s = 3` and `drop_last` false yields segments `(3, 0), (3, 3), (3/2, 6)`. -/
theorem splitOnFixedDuration_segments (s : ℚ) (dl dt : Bool) (e : Entry) (d : ℚ)
    (hd : eget e "duration" = some (Value.num d)) (_hd0 : 0 ≤ d) (_hs : 0 < s) :
    (∃ segs, splitOnFixedDuration s dl dt e = some segs ∧
      segs.length = (⌊d / s⌋).toNat +
        (if dl = false ∧ 0 < splitRemainder s d then 1 else 0) ∧
      (∀ i, i < (⌊d / s⌋).toNat →
        ∃ seg, segs[i]? = some seg ∧
          eget seg "duration" = some (Value.num s) ∧
          eget seg "offset" = some (Value.num (((i : ℕ) : ℚ) * s)) ∧
          ∀ k, k ≠ "duration" → k ≠ "offset" → k ≠ "text" → eget seg k = eget e k) ∧
      (dl = false → 0 < splitRemainder s d →
        ∃ seg, segs[(⌊d / s⌋).toNat]? = some seg ∧
          eget seg "duration" = some (Value.num (splitRemainder s d)) ∧
          eget seg "offset" = some (Value.num (s * ((⌊d / s⌋ : ℤ) : ℚ))) ∧
          ∀ k, k ≠ "duration" → k ≠ "offset" → k ≠ "text" → eget seg k = eget e k)) ∧
    splitOnFixedDuration 3 false true [("duration", Value.num (15/2))] =
      some [[("duration", Value.num 3), ("offset", Value.num 0)],
            [("duration", Value.num 3), ("offset", Value.num 3)],
            [("duration", Value.num (3/2)), ("offset", Value.num 6)]] := by
  constructor
  · have hsplit : splitOnFixedDuration s dl dt e = some (splitSegs s dl dt e d) := by
      rw [splitOnFixedDuration, hd]
    have hmainlen : ((List.range (⌊d / s⌋).toNat).map
        (fun i => mkSegment e s (((i : ℕ) : ℚ) * s) dt)).length = (⌊d / s⌋).toNat := by
      rw [List.length_map, List.length_range]
    refine ⟨splitSegs s dl dt e d, hsplit, ?_, ?_, ?_⟩
    · rw [splitSegs]
      by_cases hc : dl = false ∧ 0 < splitRemainder s d
      · rw [if_pos hc, if_pos hc, List.length_append, hmainlen]
        rfl
      · rw [if_neg hc, if_neg hc, hmainlen]
        rfl
    · intro i hi
      refine ⟨mkSegment e s (((i : ℕ) : ℚ) * s) dt, ?_,
        mkSegment_duration e s _ dt, mkSegment_offset e s _ dt,
        fun k hk1 hk2 hk3 => mkSegment_other e s _ dt k hk1 hk2 (fun _ => hk3)⟩
      have hmain : ((List.range (⌊d / s⌋).toNat).map
          (fun j => mkSegment e s (((j : ℕ) : ℚ) * s) dt))[i]? =
          some (mkSegment e s (((i : ℕ) : ℚ) * s) dt) := by
        rw [List.getElem?_map, List.getElem?_range hi]
        rfl
      rw [splitSegs]
      by_cases hc : dl = false ∧ 0 < splitRemainder s d
      · rw [if_pos hc, List.getElem?_append_left (by rw [hmainlen]; exact hi)]
        exact hmain
      · rw [if_neg hc]
        exact hmain
    · intro hdl hrem
      refine ⟨mkSegment e (splitRemainder s d) (s * ((⌊d / s⌋ : ℤ) : ℚ)) dt, ?_,
        mkSegment_duration e _ _ dt, mkSegment_offset e _ _ dt,
        fun k hk1 hk2 hk3 => mkSegment_other e _ _ dt k hk1 hk2 (fun _ => hk3)⟩
      rw [splitSegs, if_pos ⟨hdl, hrem⟩]
      have hlast := List.getElem?_concat_length
        ((List.range (⌊d / s⌋).toNat).map (fun j => mkSegment e s (((j : ℕ) : ℚ) * s) dt))
        (mkSegment e (splitRemainder s d) (s * ((⌊d / s⌋ : ℤ) : ℚ)) dt)
      rw [hmainlen] at hlast
      exact hlast
  · have hf : (⌊(15/2 : ℚ)/3⌋ : ℤ) = 2 := by norm_num
    have hr : splitRemainder 3 (15/2) = 3/2 := by rw [splitRemainder, hf]; norm_num
    simp only [splitOnFixedDuration, eget, if_pos rfl]
    simp only [splitSegs, mkSegment, eset, eget, eerase, hf, hr]
    norm_num [List.range_succ, (show Int.toNat 2 = 2 from rfl),
      (show ("duration" : String) ≠ "text" by decide),
      (show ("offset" : String) ≠ "text" by decide), hr]

/-- C1 witness: the spec scenario, entry `{"duration": 7.5}` split with
`segment_duration = 3` and `drop_last = False`. -/
theorem splitOnFixedDuration_segments_instance :
    splitOnFixedDuration 3 false true [("duration", Value.num (15/2))] =
      some [[("duration", Value.num 3), ("offset", Value.num 0)],
            [("duration", Value.num 3), ("offset", Value.num 3)],
            [("duration", Value.num (3/2)), ("offset", Value.num 6)]] :=
  (splitOnFixedDuration_segments 3 false true [("duration", Value.num (15/2))] (15/2)
    rfl (by norm_num) (by norm_num)).2

/-- C4: with exact rational arithmetic, for `duration = d ≥ 0` and
`segment_duration = s > 0` the segment durations emitted by
`SplitOnFixedDuration` sum to `d` when `drop_last` is false and to
`d - remainder` when `drop_last` is true; every offset is non-negative and
the offsets are strictly increasing in emission order; every emitted
duration is positive and none exceeds `s`. -/
theorem splitOnFixedDuration_numeric (s : ℚ) (dl dt : Bool) (e : Entry) (d : ℚ)
    (hd : eget e "duration" = some (Value.num d)) (hd0 : 0 ≤ d) (hs : 0 < s) :
    ∃ segs, splitOnFixedDuration s dl dt e = some segs ∧
      (durationsOf segs).sum = (if dl = true then d - splitRemainder s d else d) ∧
      (∀ q ∈ offsetsOf segs, 0 ≤ q) ∧
      (offsetsOf segs).Pairwise (fun a b => a < b) ∧
      (∀ q ∈ durationsOf segs, 0 < q ∧ q ≤ s) := by
  have hsplit : splitOnFixedDuration s dl dt e = some (splitSegs s dl dt e d) := by
    rw [splitOnFixedDuration, hd]
  have hfl : 0 ≤ ⌊d / s⌋ := floor_nonneg_of s d hd0 hs
  have hcast : (((⌊d / s⌋).toNat : ℕ) : ℚ) = ((⌊d / s⌋ : ℤ) : ℚ) := by
    exact_mod_cast congrArg (fun z : ℤ => (z : ℚ)) (Int.toNat_of_nonneg hfl)
  have hr0 : 0 ≤ splitRemainder s d := splitRemainder_nonneg s d hd0 hs
  have hrs : splitRemainder s d < s := splitRemainder_lt s d hs
  have hsum_main : (List.replicate (⌊d / s⌋).toNat s).sum = ((⌊d / s⌋ : ℤ) : ℚ) * s := by
    rw [List.sum_replicate, nsmul_eq_mul, hcast]
  refine ⟨splitSegs s dl dt e d, hsplit, ?_, ?_, ?_, ?_⟩
  · rw [durationsOf_splitSegs]
    by_cases hc : dl = false ∧ 0 < splitRemainder s d
    · rw [if_pos hc, List.sum_append, hsum_main, hc.1, if_neg (by decide)]
      simp only [List.sum_cons, List.sum_nil, add_zero]
      rw [splitRemainder]
      ring
    · rw [if_neg hc, List.append_nil, hsum_main]
      cases dl with
      | true =>
          rw [if_pos rfl, splitRemainder]
          ring
      | false =>
          rw [if_neg (by decide)]
          have hnl : ¬ 0 < splitRemainder s d := fun h => hc ⟨rfl, h⟩
          have hz : splitRemainder s d = 0 := le_antisymm (not_lt.mp hnl) hr0
          rw [splitRemainder] at hz
          linarith
  · rw [offsetsOf_splitSegs]
    intro q hq
    rcases List.mem_append.mp hq with hm | hm
    · obtain ⟨i, _, hi⟩ := List.mem_map.mp hm
      rw [← hi]
      exact mul_nonneg (Nat.cast_nonneg i) hs.le
    · revert hm
      by_cases hc : dl = false ∧ 0 < splitRemainder s d
      · rw [if_pos hc]
        intro hm
        rw [List.mem_singleton.mp hm]
        exact mul_nonneg hs.le (by exact_mod_cast hfl)
      · rw [if_neg hc]
        intro hm
        exact absurd hm (List.not_mem_nil q)
  · rw [offsetsOf_splitSegs]
    have hpw_main : ((List.range (⌊d / s⌋).toNat).map
        (fun i => ((i : ℕ) : ℚ) * s)).Pairwise (fun a b => a < b) := by
      rw [List.pairwise_map]
      exact (List.pairwise_lt_range _).imp
        (fun hab => mul_lt_mul_of_pos_right (by exact_mod_cast hab) hs)
    by_cases hc : dl = false ∧ 0 < splitRemainder s d
    · rw [if_pos hc, List.pairwise_append]
      refine ⟨hpw_main, by simp, ?_⟩
      intro a ha b hb
      obtain ⟨i, hi, hia⟩ := List.mem_map.mp ha
      rw [List.mem_singleton.mp hb, ← hia]
      have hi' : i < (⌊d / s⌋).toNat := List.mem_range.mp hi
      have hcastlt : ((i : ℕ) : ℚ) < ((⌊d / s⌋ : ℤ) : ℚ) := by
        rw [← hcast]
        exact_mod_cast hi'
      calc ((i : ℕ) : ℚ) * s < ((⌊d / s⌋ : ℤ) : ℚ) * s := mul_lt_mul_of_pos_right hcastlt hs
        _ = s * ((⌊d / s⌋ : ℤ) : ℚ) := mul_comm _ _
    · rw [if_neg hc, List.append_nil]
      exact hpw_main
  · rw [durationsOf_splitSegs]
    intro q hq
    rcases List.mem_append.mp hq with hm | hm
    · rw [List.eq_of_mem_replicate hm]
      exact ⟨hs, le_refl s⟩
    · revert hm
      by_cases hc : dl = false ∧ 0 < splitRemainder s d
      · rw [if_pos hc]
        intro hm
        rw [List.mem_singleton.mp hm]
        exact ⟨hc.2, hrs.le⟩
      · rw [if_neg hc]
        intro hm
        exact absurd hm (List.not_mem_nil q)

/-- C4 witness: the segments of `{"duration": 7.5}` with `s = 3` and
`drop_last` false have durations summing to `7.5`. -/
theorem splitOnFixedDuration_numeric_instance :
    ∃ segs, splitOnFixedDuration 3 false true [("duration", Value.num (15/2))] = some segs ∧
      (durationsOf segs).sum = 15/2 := by
  obtain ⟨segs, h1, h2, _, _, _⟩ := splitOnFixedDuration_numeric 3 false true
    [("duration", Value.num (15/2))] (15/2) rfl (by norm_num) (by norm_num)
  refine ⟨segs, h1, ?_⟩
  rw [h2, if_neg (by decide)]

/-- C2 (documents the code defect): `RemoveExtraSymbols.process_dataset_entry`
computes `cleaned_text` and the removed-symbol metric but returns
`DataEntry(data=data_entry)` without writing the cleaned text back, so the
returned entry still carries the original text: on `{"text": "a.b:"}` with
ignore symbols `"b"` and the armenian tag, the returned text field is the
unchanged `"a.b:"` (with metric 1) while the cleaned text the claim and
the class docstring promise is `"a․։"`, which differs. -/
theorem removeExtraSymbols_text_not_written :
    removeExtraSymbols "b" "armenian" "text" [("text", Value.str "a.b:")] =
      some ([("text", Value.str "a.b:")], 1) ∧
    clear_text "a.b:" "b" "armenian" = "a․։" ∧
    ("a.b:" : String) ≠ "a․։" := ⟨by decide, by decide, by decide⟩

/-- C8 (documents the code defect): because the cleaned text is never
written back, the entry `{"text": "ab"}` is returned unchanged with metric
1, so a second application with the same configuration receives the very
same entry and again reports metric 1, not the 0 the claim requires. -/
theorem removeExtraSymbols_second_metric :
    removeExtraSymbols "b" "armenian" "text" [("text", Value.str "ab")] =
      some ([("text", Value.str "ab")], 1) ∧
    (removeExtraSymbols "b" "armenian" "text" [("text", Value.str "ab")]).map Prod.snd ≠
      some 0 := ⟨by decide, by decide⟩

/-- C10: the command list built by `CreateTokenizer.get_command_to_run`
contains the flag `--no_lower_case` exactly when the `lower_case`
constructor argument is true — the flag's presence tracks
`lower_case = True`, the opposite of what its name suggests (the
hypotheses only rule out configuration strings that are themselves the
literal flag). -/
theorem tokenizerCommand_lower_case_flag
    (exe script doc root tok spe : String) (vocab : ℕ) (lc : Bool)
    (h1 : exe ≠ "--no_lower_case") (h2 : script ≠ "--no_lower_case")
    (h3 : doc ≠ "--no_lower_case") (h4 : root ≠ "--no_lower_case")
    (h5 : tok ≠ "--no_lower_case") (h6 : spe ≠ "--no_lower_case")
    (h7 : toString vocab ≠ "--no_lower_case") :
    "--no_lower_case" ∈ getTokenizerCommand exe script doc root vocab tok spe lc ↔
      lc = true := by
  rw [getTokenizerCommand]
  cases lc with
  | true =>
      simp only [if_pos]
      constructor
      · intro _
        trivial
      · intro _
        exact List.mem_append.mpr (Or.inr (by simp))
  | false =>
      simp only [Bool.false_eq_true, if_false]
      constructor
      · intro hmem
        simp only [List.mem_cons, List.not_mem_nil, or_false] at hmem
        rcases hmem with h | h | h | h | h | h | h | h | h | h | h | h
        · exact absurd h.symm h1
        · exact absurd h.symm h2
        · exact absurd h (by decide)
        · exact absurd h.symm h3
        · exact absurd h (by decide)
        · exact absurd h.symm h7
        · exact absurd h (by decide)
        · exact absurd h.symm h4
        · exact absurd h (by decide)
        · exact absurd h.symm h5
        · exact absurd h (by decide)
        · exact absurd h.symm h6
      · intro h
        exact absurd h (by decide)

/-- C10 witness: a concrete tokenizer configuration, checked for both
values of `lower_case`. -/
theorem tokenizerCommand_lower_case_flag_instance :
    ("--no_lower_case" ∈ getTokenizerCommand "python" "process_asr_text_tokenizer.py"
        "document.txt" "data" 128 "spe" "unigram" true ↔ (true : Bool) = true) ∧
    ("--no_lower_case" ∈ getTokenizerCommand "python" "process_asr_text_tokenizer.py"
        "document.txt" "data" 128 "spe" "unigram" false ↔ (false : Bool) = true) :=
  ⟨tokenizerCommand_lower_case_flag "python" "process_asr_text_tokenizer.py"
      "document.txt" "data" "spe" "unigram" 128 true (by decide) (by decide) (by decide)
      (by decide) (by decide) (by decide) (by decide),
    tokenizerCommand_lower_case_flag "python" "process_asr_text_tokenizer.py"
      "document.txt" "data" "spe" "unigram" 128 false (by decide) (by decide) (by decide)
      (by decide) (by decide) (by decide) (by decide)⟩
